import Mathlib

/-!
Verification development for `src/srcpkg.py`, a source-based package manager.
Each Python function relevant to the checked claims is embedded as an
executable Lean definition; theorems about those definitions settle the
claims of the specification.

Conventions used throughout:
* Python strings are Lean `String`s; Python string comparison is the
  code-point lexicographic order, which coincides with `String`'s `<`.
* Python dictionaries keyed by strings are association lists with
  first-match lookup (`List.find?`).
* File contents are abstract byte lists (`List Nat`); SHA-256 is an
  abstract parameter function, since the claims only depend on comparing
  its output with a declared string.
* Bounded recursion from the source (whose depth is structurally bounded,
  e.g. by the length of the scanned string) is written with an explicit
  fuel argument initialised to that bound, keeping every definition
  executable by kernel reduction.
-/

namespace Srcpkg

/-- ASCII alphanumeric test, the character class `0-9A-Za-z` of the
regular expression used by `SrcPkg._verkey` to split version strings. -/
def isAsciiAlnum (c : Char) : Bool :=
  (decide (48 ≤ c.toNat) && decide (c.toNat ≤ 57)) ||
  (decide (65 ≤ c.toNat) && decide (c.toNat ≤ 90)) ||
  (decide (97 ≤ c.toNat) && decide (c.toNat ≤ 122))

/-- ASCII digit test, modelling Python's `str.isdigit` on the strings that
`re.split` produces from a version string. -/
def isAsciiDigit (c : Char) : Bool :=
  decide (48 ≤ c.toNat) && decide (c.toNat ≤ 57)

/-- Skip a maximal run of separator (non-alphanumeric) characters, the way
`re.split(r"[^0-9A-Za-z]+", v)` consumes one separator match. -/
def dropSep : List Char → List Char
  | [] => []
  | c :: cs => if isAsciiAlnum c then c :: cs else dropSep cs

theorem dropSep_length_le (l : List Char) : (dropSep l).length ≤ l.length := by
  induction l with
  | nil => simp [dropSep]
  | cons c cs ih =>
    simp only [dropSep]
    split
    · exact Nat.le_refl _
    · exact Nat.le_trans ih (Nat.le_succ _)

/-- Accumulating worker for the version splitter.  `splitAux fuel l cur`
emits the token collected so far whenever a separator run (or the end of
the input) is reached; `re.split` keeps empty pieces at both ends, which
is why the current token is emitted even when empty.  The fuel is
initialised to the length of the scanned list, which every call chain
strictly consumes, so the fuel clause is never reached from `splitParts`. -/
def splitAux : Nat → List Char → String → List String
  | 0, _, cur => [cur]
  | _ + 1, [], cur => [cur]
  | fuel + 1, c :: cs, cur =>
    if isAsciiAlnum c then splitAux fuel cs (cur.push c)
    else cur :: splitAux fuel (dropSep cs) ""

/-- Python's `re.split(r"[^0-9A-Za-z]+", v)`: split a version string on
maximal runs of non-alphanumeric characters, keeping empty end pieces. -/
def splitParts (v : String) : List String :=
  splitAux v.data.length v.data ""

/-- One component of a version key: `(0, int(p))` for a digit-only part,
`(1, p)` otherwise, exactly as built by `SrcPkg._verkey`. -/
inductive VTok where
  | num (n : Nat)
  | alpha (s : String)
deriving DecidableEq, Repr

/-- Numeric value of a digit string, as Python's `int` on a digit-only
string. -/
def natOfDigits (l : List Char) : Nat :=
  l.foldl (fun a c => a * 10 + (c.toNat - 48)) 0

/-- Python's `p.isdigit()` restricted to the ASCII tokens the splitter
produces: non-empty and all digits. -/
def isDigitsB (s : String) : Bool :=
  !s.data.isEmpty && s.data.all isAsciiDigit

/-- Key component for one split part of a version string. -/
def tokOf (s : String) : VTok :=
  if isDigitsB s then VTok.num (natOfDigits s.data) else VTok.alpha s

/-- Embedding of `SrcPkg._verkey`: the comparison key of a version
string. -/
def verkey (v : String) : List VTok :=
  (splitParts v).map tokOf

/-- Comparison of key components, following Python's comparison of the
pairs `(0, int)` / `(1, str)`: the numeric tag sorts first, numbers
compare as integers, strings compare lexicographically. -/
def vtokLtB : VTok → VTok → Bool
  | VTok.num a, VTok.num b => decide (a < b)
  | VTok.num _, VTok.alpha _ => true
  | VTok.alpha _, VTok.num _ => false
  | VTok.alpha a, VTok.alpha b => decide (a < b)

/-- Lexicographic strict comparison of token lists, following Python's
tuple comparison: position by position, with a shorter tuple below a
longer tuple that extends it. -/
def lexLtB {α : Type} [DecidableEq α] (lt : α → α → Bool) : List α → List α → Bool
  | [], [] => false
  | [], _ :: _ => true
  | _ :: _, [] => false
  | a :: as, b :: bs => lt a b || (decide (a = b) && lexLtB lt as bs)

/-- Strict version ordering of `srcpkg`: compare the `_verkey` keys. -/
def vltB (a b : String) : Bool :=
  lexLtB vtokLtB (verkey a) (verkey b)

/-- Non-strict version ordering, Python's `<=` on the `_verkey` tuples. -/
def vleB (a b : String) : Bool :=
  vltB a b || decide (verkey a = verkey b)

theorem string_ext_of_data {a b : String} (h : a.data = b.data) : a = b := by
  cases a
  cases b
  exact congrArg String.mk h

theorem vtokLtB_irrefl (a : VTok) : vtokLtB a a = false := by
  cases a <;> simp [vtokLtB]

theorem vtokLtB_trans {a b c : VTok} (h1 : vtokLtB a b = true)
    (h2 : vtokLtB b c = true) : vtokLtB a c = true := by
  cases a <;> cases b <;> cases c <;> simp [vtokLtB] at *
  case num.num.num => omega
  case alpha.alpha.alpha => exact lt_trans h1 h2

theorem vtokLtB_trichot (a b : VTok) :
    vtokLtB a b = true ∨ a = b ∨ vtokLtB b a = true := by
  cases a <;> cases b <;> simp [vtokLtB]
  case num.num a b => omega
  case alpha.alpha a b =>
    rcases lt_trichotomy a.data b.data with h | h | h
    · exact Or.inl h
    · exact Or.inr (Or.inl (string_ext_of_data h))
    · exact Or.inr (Or.inr h)

theorem lexLtB_irrefl {α : Type} [DecidableEq α] (lt : α → α → Bool)
    (hir : ∀ a, lt a a = false) (l : List α) : lexLtB lt l l = false := by
  induction l with
  | nil => simp [lexLtB]
  | cons a as ih => simp [lexLtB, hir, ih]

theorem lexLtB_trans {α : Type} [DecidableEq α] (lt : α → α → Bool)
    (htr : ∀ {a b c}, lt a b = true → lt b c = true → lt a c = true) :
    ∀ {l m n : List α}, lexLtB lt l m = true → lexLtB lt m n = true →
      lexLtB lt l n = true := by
  intro l
  induction l with
  | nil =>
    intro m n h1 h2
    cases m with
    | nil => simpa using h2
    | cons b bs =>
      cases n with
      | nil => simp [lexLtB] at h2
      | cons c cs => simp [lexLtB]
  | cons a as ih =>
    intro m n h1 h2
    cases m with
    | nil => simp [lexLtB] at h1
    | cons b bs =>
      cases n with
      | nil => simp [lexLtB] at h2
      | cons c cs =>
        simp only [lexLtB, Bool.or_eq_true, Bool.and_eq_true,
          decide_eq_true_eq] at h1 h2 ⊢
        rcases h1 with h1 | ⟨rfl, h1⟩
        · rcases h2 with h2 | ⟨rfl, h2⟩
          · exact Or.inl (htr h1 h2)
          · exact Or.inl h1
        · rcases h2 with h2 | ⟨rfl, h2⟩
          · exact Or.inl h2
          · exact Or.inr ⟨rfl, ih h1 h2⟩

theorem lexLtB_trichot {α : Type} [DecidableEq α] (lt : α → α → Bool)
    (htri : ∀ a b, lt a b = true ∨ a = b ∨ lt b a = true) :
    ∀ l m : List α, lexLtB lt l m = true ∨ l = m ∨ lexLtB lt m l = true := by
  intro l
  induction l with
  | nil =>
    intro m
    cases m with
    | nil => exact Or.inr (Or.inl rfl)
    | cons b bs => exact Or.inl (by simp [lexLtB])
  | cons a as ih =>
    intro m
    cases m with
    | nil => exact Or.inr (Or.inr (by simp [lexLtB]))
    | cons b bs =>
      rcases htri a b with h | rfl | h
      · exact Or.inl (by simp [lexLtB, h])
      · rcases ih bs with h2 | rfl | h2
        · exact Or.inl (by simp [lexLtB, h2])
        · exact Or.inr (Or.inl rfl)
        · exact Or.inr (Or.inr (by simp [lexLtB, h2]))
      · exact Or.inr (Or.inr (by simp [lexLtB, h]))

theorem lexLtB_append_singleton {α : Type} [DecidableEq α] (lt : α → α → Bool)
    (hir : ∀ a, lt a a = false) (l : List α) (x : α) :
    lexLtB lt l (l ++ [x]) = true := by
  induction l with
  | nil => simp [lexLtB]
  | cons a as ih => simp [lexLtB, hir, ih]

theorem splitAux_nil (fuel : Nat) (cur : String) : splitAux fuel [] cur = [cur] := by
  cases fuel <;> rfl

theorem splitAux_cons (fuel : Nat) (c : Char) (cs : List Char) (cur : String) :
    splitAux (fuel + 1) (c :: cs) cur =
      if isAsciiAlnum c then splitAux fuel cs (cur.push c)
      else cur :: splitAux fuel (dropSep cs) "" := rfl

/-- Fuel irrelevance for the version splitter: any fuel at least the length
of the scanned list yields the same result. -/
theorem splitAux_fuel :
    ∀ (k : Nat) (l : List Char) (cur : String) (n m : Nat),
      l.length ≤ k → l.length ≤ n → l.length ≤ m →
      splitAux n l cur = splitAux m l cur := by
  intro k
  induction k with
  | zero =>
    intro l cur n m hk _ _
    have hl : l = [] := List.eq_nil_of_length_eq_zero (Nat.le_zero.mp hk)
    subst hl
    rw [splitAux_nil, splitAux_nil]
  | succ k ih =>
    intro l cur n m hk hn hm
    cases l with
    | nil => rw [splitAux_nil, splitAux_nil]
    | cons c cs =>
      simp only [List.length_cons] at hk hn hm
      cases n with
      | zero => omega
      | succ n1 =>
        cases m with
        | zero => omega
        | succ m1 =>
          rw [splitAux_cons, splitAux_cons]
          by_cases hc : isAsciiAlnum c = true
          · simp only [hc, if_true]
            exact ih cs (cur.push c) n1 m1 (by omega) (by omega) (by omega)
          · simp only [Bool.not_eq_true] at hc
            simp only [hc, Bool.false_eq_true, if_false]
            have hd := dropSep_length_le cs
            exact congrArg (cur :: ·)
              (ih (dropSep cs) "" n1 m1 (by omega) (by omega) (by omega))

/-- Last character of a scanned list, when it exists, is alphanumeric.  The
empty list qualifies vacuously. -/
def lastOkB (l : List Char) : Bool :=
  match l.getLast? with
  | none => true
  | some c => isAsciiAlnum c

theorem lastOkB_tail {c : Char} {cs : List Char} (h : lastOkB (c :: cs) = true) :
    lastOkB cs = true := by
  cases cs with
  | nil => rfl
  | cons d ds => simpa [lastOkB, List.getLast?_cons_cons] using h

theorem cons_ne_nil_of_sep {c : Char} {cs : List Char} (hc : isAsciiAlnum c = false)
    (h : lastOkB (c :: cs) = true) : cs ≠ [] := by
  intro hnil
  subst hnil
  simp [lastOkB, hc] at h

theorem any_alnum_of_lastOkB {l : List Char} (hne : l ≠ []) (h : lastOkB l = true) :
    l.any isAsciiAlnum = true := by
  rcases hc : l.getLast? with _ | c
  · exact absurd (List.getLast?_eq_none_iff.mp hc) hne
  · have hmem : c ∈ l := List.mem_of_getLast?_eq_some hc
    have halnum : isAsciiAlnum c = true := by simpa [lastOkB, hc] using h
    exact List.any_eq_true.mpr ⟨c, hmem, halnum⟩

theorem dropSep_append {l : List Char} (t : List Char)
    (h : l.any isAsciiAlnum = true) : dropSep (l ++ t) = dropSep l ++ t := by
  induction l with
  | nil => simp at h
  | cons c cs ih =>
    by_cases hc : isAsciiAlnum c = true
    · simp [dropSep, hc]
    · simp only [Bool.not_eq_true] at hc
      have h2 : cs.any isAsciiAlnum = true := by simpa [List.any_cons, hc] using h
      simp [dropSep, hc, ih h2]

theorem getLast?_dropSep {l : List Char} (h : l.any isAsciiAlnum = true) :
    (dropSep l).getLast? = l.getLast? := by
  induction l with
  | nil => simp at h
  | cons c cs ih =>
    by_cases hc : isAsciiAlnum c = true
    · simp [dropSep, hc]
    · simp only [Bool.not_eq_true] at hc
      have h2 : cs.any isAsciiAlnum = true := by simpa [List.any_cons, hc] using h
      have hcs : cs ≠ [] := by
        rintro rfl
        simp at h2
      rw [show dropSep (c :: cs) = dropSep cs by simp [dropSep, hc], ih h2]
      cases cs with
      | nil => exact absurd rfl hcs
      | cons d ds => simp [List.getLast?_cons_cons]

theorem splitAux_dot1 (cur : String) (n : Nat) (hn : 2 ≤ n) :
    splitAux n ['.', '1'] cur = [cur, "1"] := by
  cases n with
  | zero => omega
  | succ n1 =>
    cases n1 with
    | zero => omega
    | succ n2 =>
      rw [splitAux_cons]
      have hdot : isAsciiAlnum '.' = false := by decide
      simp only [hdot, Bool.false_eq_true, if_false]
      rw [show dropSep ['1'] = ['1'] by decide]
      rw [splitAux_cons]
      have h1 : isAsciiAlnum '1' = true := by decide
      simp only [h1, if_true]
      rw [splitAux_nil]
      rfl

/-- Appending the two characters of `".1"` to a scanned list that is empty
or ends in an alphanumeric character appends exactly one extra part `"1"`
to the splitter's output. -/
theorem splitAux_append_dot1 :
    ∀ (k : Nat) (l : List Char) (cur : String) (n : Nat),
      l.length ≤ k → l.length + 2 ≤ n → lastOkB l = true →
      splitAux n (l ++ ['.', '1']) cur = splitAux l.length l cur ++ ["1"] := by
  intro k
  induction k with
  | zero =>
    intro l cur n hk hn _
    have hl : l = [] := List.eq_nil_of_length_eq_zero (Nat.le_zero.mp hk)
    subst hl
    simp only [List.length_nil, List.nil_append] at hn ⊢
    rw [splitAux_dot1 cur n (by omega), splitAux_nil]
    rfl
  | succ k ih =>
    intro l cur n hk hn hlast
    cases l with
    | nil =>
      simp only [List.length_nil, List.nil_append] at hn ⊢
      rw [splitAux_dot1 cur n (by omega), splitAux_nil]
      rfl
    | cons c cs =>
      simp only [List.length_cons] at hk hn ⊢
      cases n with
      | zero => omega
      | succ n1 =>
        rw [List.cons_append, splitAux_cons, splitAux_cons]
        by_cases hc : isAsciiAlnum c = true
        · simp only [hc, if_true]
          exact ih cs (cur.push c) n1 (by omega) (by omega) (lastOkB_tail hlast)
        · simp only [Bool.not_eq_true] at hc
          simp only [hc, Bool.false_eq_true, if_false, List.cons_append]
          have hcs : cs ≠ [] := cons_ne_nil_of_sep hc hlast
          have hany : cs.any isAsciiAlnum = true :=
            any_alnum_of_lastOkB hcs (lastOkB_tail hlast)
          rw [dropSep_append _ hany]
          have hdl := dropSep_length_le cs
          have hlastd : lastOkB (dropSep cs) = true := by
            unfold lastOkB
            rw [getLast?_dropSep hany]
            have := lastOkB_tail hlast
            unfold lastOkB at this
            exact this
          rw [ih (dropSep cs) "" n1 (by omega) (by omega) hlastd]
          rw [splitAux_fuel (cs.length) (dropSep cs) "" (dropSep cs).length cs.length
            hdl (Nat.le_refl _) hdl]

theorem data_append (a b : String) : (a ++ b).data = a.data ++ b.data := by
  cases a
  cases b
  rfl

/-- Appending `".1"` to a version string that is empty or ends in an
alphanumeric character appends the numeric key component `1`. -/
theorem verkey_append_dot1 (v : String) (h : lastOkB v.data = true) :
    verkey (v ++ ".1") = verkey v ++ [VTok.num 1] := by
  unfold verkey splitParts
  rw [data_append, show (".1" : String).data = ['.', '1'] from rfl]
  rw [splitAux_append_dot1 v.data.length v.data "" (v.data ++ ['.', '1']).length
    (Nat.le_refl _) (by simp) h]
  rw [List.map_append]
  rfl

/-- C2, counterexample.  The claim asserts that the `_verkey` comparison is
a total order on version strings and that every version string `v`
satisfies `v < v ++ ".1"`.  Both parts fail on the code: for `v = "1."`
the splitter yields a trailing empty alphabetic token, so `"1."` compares
strictly above `"1..1" = "1." ++ ".1"`; and the distinct strings `"1.2"`
and `"1-2"` have equal keys, so the induced relation on strings is not
antisymmetric. -/
theorem claim_c2_counterexample :
    (vltB "1." ("1." ++ ".1") = false ∧ vltB ("1." ++ ".1") "1." = true)
    ∧ (verkey "1.2" = verkey "1-2" ∧ "1.2" ≠ "1-2") := by decide

/-- C2, amended.  The `_verkey` comparison is a strict weak order giving a
total preorder on version strings (transitive, asymmetric, and total up to
key equality; it is a linear order on the derived key tuples), and it is
monotone under appending `".1"` for every version string that is empty or
ends in an alphanumeric character. -/
theorem claim_c2_amended :
    (∀ u v w : String, vltB u v = true → vltB v w = true → vltB u w = true)
    ∧ (∀ u v : String, vltB u v = true → vltB v u = false)
    ∧ (∀ u v : String, vltB u v = true ∨ verkey u = verkey v ∨ vltB v u = true)
    ∧ (∀ v : String, lastOkB v.data = true → vltB v (v ++ ".1") = true) := by
  refine ⟨?_, ?_, ?_, ?_⟩
  · intro u v w h1 h2
    unfold vltB at *
    exact lexLtB_trans vtokLtB (fun h1 h2 => vtokLtB_trans h1 h2) h1 h2
  · intro u v h
    unfold vltB at *
    cases hvu : lexLtB vtokLtB (verkey v) (verkey u)
    · rfl
    · have h2 := lexLtB_trans vtokLtB (fun a b => vtokLtB_trans a b) h hvu
      rw [lexLtB_irrefl vtokLtB vtokLtB_irrefl] at h2
      exact absurd h2 (by simp)
  · intro u v
    unfold vltB
    rcases lexLtB_trichot vtokLtB vtokLtB_trichot (verkey u) (verkey v) with h | h | h
    · exact Or.inl h
    · exact Or.inr (Or.inl h)
    · exact Or.inr (Or.inr h)
  · intro v h
    unfold vltB
    rw [verkey_append_dot1 v h]
    exact lexLtB_append_singleton vtokLtB vtokLtB_irrefl _ _

/-- C2, witness for the amended claim: transitivity chains two concrete
comparisons (`10` beats `2` numerically), and monotone append holds for
the concrete version `"1.2"`. -/
theorem claim_c2_witness :
    vltB "1.1" "1.10" = true ∧ vltB "1.2" ("1.2" ++ ".1") = true :=
  ⟨claim_c2_amended.1 "1.1" "1.2" "1.10" (by decide) (by decide),
   claim_c2_amended.2.2.2 "1.2" (by decide)⟩

/-- Insertion of one element into a list sorted non-strictly by `le`,
building block for the embedding of Python's `sorted`. -/
def insertLe {α : Type} (le : α → α → Bool) (x : α) : List α → List α
  | [] => [x]
  | y :: ys => if le y x then y :: insertLe le x ys else x :: y :: ys

/-- Insertion sort by the boolean relation `le`, the embedding of Python's
`sorted` (the claims only depend on the output being a sorted permutation
of the input). -/
def sortLe {α : Type} (le : α → α → Bool) (l : List α) : List α :=
  l.foldr (insertLe le) []

theorem insertLe_perm {α : Type} (le : α → α → Bool) (x : α) (l : List α) :
    List.Perm (insertLe le x l) (x :: l) := by
  induction l with
  | nil => exact List.Perm.refl _
  | cons y ys ih =>
    simp only [insertLe]
    split
    · exact List.Perm.trans (List.Perm.cons y ih) (List.Perm.swap x y ys)
    · exact List.Perm.refl _

theorem sortLe_perm {α : Type} (le : α → α → Bool) (l : List α) :
    List.Perm (sortLe le l) l := by
  induction l with
  | nil => exact List.Perm.refl _
  | cons x xs ih =>
    exact List.Perm.trans (insertLe_perm le x (sortLe le xs)) (List.Perm.cons x ih)

theorem mem_sortLe {α : Type} (le : α → α → Bool) (x : α) (l : List α) :
    x ∈ sortLe le l ↔ x ∈ l :=
  (sortLe_perm le l).mem_iff

theorem pairwise_insertLe {α : Type} (le : α → α → Bool)
    (htot : ∀ a b, le a b = true ∨ le b a = true)
    (htr : ∀ {a b c}, le a b = true → le b c = true → le a c = true)
    (x : α) (l : List α) (h : List.Pairwise (fun a b => le a b = true) l) :
    List.Pairwise (fun a b => le a b = true) (insertLe le x l) := by
  induction l with
  | nil => simp [insertLe]
  | cons y ys ih =>
    rcases h with _ | ⟨hy, hys⟩
    simp only [insertLe]
    by_cases hle : le y x = true
    · simp only [hle, if_true]
      refine List.Pairwise.cons ?_ (ih hys)
      intro z hz
      rcases List.mem_cons.mp ((insertLe_perm le x ys).mem_iff.mp hz) with rfl | hz2
      · exact hle
      · exact hy z hz2
    · have hxy : le x y = true := (htot x y).resolve_right (fun h2 => hle h2)
      simp only [hle, if_false]
      refine List.Pairwise.cons ?_ (List.Pairwise.cons hy hys)
      intro z hz
      rcases List.mem_cons.mp hz with rfl | hz2
      · exact hxy
      · exact htr hxy (hy z hz2)

theorem pairwise_sortLe {α : Type} (le : α → α → Bool)
    (htot : ∀ a b, le a b = true ∨ le b a = true)
    (htr : ∀ {a b c}, le a b = true → le b c = true → le a c = true)
    (l : List α) :
    List.Pairwise (fun a b => le a b = true) (sortLe le l) := by
  induction l with
  | nil => simp [sortLe]
  | cons x xs ih => exact pairwise_insertLe le htot htr x (sortLe le xs) ih

/-- Ascending string order used by Python's `sorted` on strings. -/
def strLeB (a b : String) : Bool := decide (a ≤ b)

/-- Embedding of `SrcPkg.orphans`.  The database is the list of installed
records abstracted to (name, depends); the result is the sorted list of
installed names that occur in no installed record's `depends` list
(including the package's own list, since the code subtracts the union of
all `depends` sets from the name set). -/
def orphans (db : List (String × List String)) : List String :=
  let names := (db.map (fun p => p.1)).dedup
  let required := (db.map (fun p => p.2)).flatten
  sortLe strLeB (names.filter (fun n => !(decide (n ∈ required))))

/-- Follows the claim's words for C3, for comparison with `orphans`: a
package is an orphan when no OTHER installed package (one with a different
name) lists it among its depends. -/
def orphansSpec (db : List (String × List String)) : List String :=
  sortLe strLeB
    (((db.map (fun p => p.1)).dedup).filter
      (fun n => decide (∀ q ∈ db, q.1 ≠ n → n ∉ q.2)))

/-- C3, counterexample.  For a database containing a single installed
package that lists itself among its depends, the code returns no orphans
(it subtracts every depends entry, including the package's own), while
the claim's definition ("no other installed package's depends contains p")
makes the package an orphan. -/
theorem claim_c3_counterexample :
    orphans [("a", ["a"])] = [] ∧ orphansSpec [("a", ["a"])] = ["a"] := by decide

/-- C3, amended.  A name is returned by `orphans` iff it is installed and
occurs in NO installed record's depends list, the package's own included;
the returned list is sorted ascending. -/
theorem claim_c3_amended (db : List (String × List String)) (p : String) :
    (p ∈ orphans db ↔ p ∈ db.map (fun q => q.1) ∧ ∀ q ∈ db, p ∉ q.2)
    ∧ List.Pairwise (fun a b : String => a ≤ b) (orphans db) := by
  constructor
  · rw [orphans, mem_sortLe, List.mem_filter, List.mem_dedup]
    constructor
    · rintro ⟨hmem, hreq⟩
      have hnot : p ∉ (db.map (fun q => q.2)).flatten := by simpa using hreq
      refine ⟨hmem, ?_⟩
      intro q hq hpq
      exact hnot (List.mem_flatten.mpr ⟨q.2, List.mem_map.mpr ⟨q, hq, rfl⟩, hpq⟩)
    · rintro ⟨hmem, hreq⟩
      refine ⟨hmem, ?_⟩
      have hnot : p ∉ (db.map (fun q => q.2)).flatten := by
        intro hmem2
        obtain ⟨l, hl, hpl⟩ := List.mem_flatten.mp hmem2
        obtain ⟨q, hq, rfl⟩ := List.mem_map.mp hl
        exact hreq q hq hpl
      simpa using hnot
  · refine List.Pairwise.imp ?_
      (pairwise_sortLe strLeB (fun a b => ?_) (fun h1 h2 => ?_) _)
    · exact fun h => of_decide_eq_true h
    · simpa [strLeB] using le_total a b
    · simp only [strLeB, decide_eq_true_eq] at *
      exact le_trans h1 h2

/-- Lookup of one installed record by name, the embedding of
`InstalledPkg.load` on a database abstracted to (name, version) pairs. -/
def dbLookupV (db : List (String × String)) (n : String) : Option String :=
  (db.find? (fun p => p.1 == n)).map (fun p => p.2)

/-- Write of the record `<name>.json`, replacing any record of that name. -/
def dbUpdateV (db : List (String × String)) (n v : String) :
    List (String × String) :=
  (n, v) :: db.filter (fun p => !(p.1 == n))

/-- Embedding of `SrcPkg.upgrade`: no-op when the package is not installed
or the recipe version is not strictly above the installed one under the
`_verkey` ordering; otherwise a full install-from-recipe replaces the
record.  The boolean records whether the install ran. -/
def upgrade (name ver : String) (db : List (String × String)) :
    List (String × String) × Bool :=
  match dbLookupV db name with
  | none => (db, false)
  | some iv =>
    if vleB ver iv then (db, false) else (dbUpdateV db name ver, true)

theorem dbLookupV_update_self (db : List (String × String)) (n v : String) :
    dbLookupV (dbUpdateV db n v) n = some v := by
  simp [dbLookupV, dbUpdateV, List.find?]

theorem dbLookupV_update_other (db : List (String × String)) (n v m : String)
    (h : m ≠ n) : dbLookupV (dbUpdateV db n v) m = dbLookupV db m := by
  have hn : (n == m) = false := by
    simp only [beq_eq_false_iff_ne, ne_eq]
    exact fun h2 => h (h2.symm)
  induction db with
  | nil => simp [dbLookupV, dbUpdateV, List.find?, hn]
  | cons q qs ih =>
    by_cases hq : q.1 = n
    · have hqm : (q.1 == m) = false := by
        simp only [beq_eq_false_iff_ne, ne_eq, hq]
        exact fun h2 => h (h2.symm)
      simp only [dbLookupV, dbUpdateV, List.filter, List.find?, hn, hq,
        beq_self_eq_true, Bool.not_true] at *
      simpa [List.find?, hqm] using ih
    · have hqn : (q.1 == n) = false := by simpa using hq
      simp only [dbLookupV, dbUpdateV, List.filter, List.find?, hn, hqn,
        Bool.not_false] at *
      cases hqm : (q.1 == m) with
      | true => simp [List.find?, hqm]
      | false => simpa [List.find?, hqm] using ih

/-- C6.  Upgrade is a no-op when the package is not installed or when the
recipe version is not strictly greater than the installed version under
the `_verkey` ordering: the database is returned unchanged and no install
runs.  Otherwise the install runs and replaces exactly this package's
record. -/
theorem claim_c6 :
    (∀ name ver db, dbLookupV db name = none → upgrade name ver db = (db, false))
    ∧ (∀ name ver db iv, dbLookupV db name = some iv → vleB ver iv = true →
        upgrade name ver db = (db, false))
    ∧ (∀ name ver db iv, dbLookupV db name = some iv → vleB ver iv = false →
        (upgrade name ver db).2 = true
        ∧ dbLookupV (upgrade name ver db).1 name = some ver
        ∧ (∀ m, m ≠ name → dbLookupV (upgrade name ver db).1 m = dbLookupV db m)) := by
  refine ⟨?_, ?_, ?_⟩
  · intro name ver db h
    simp [upgrade, h]
  · intro name ver db iv h hle
    simp [upgrade, h, hle]
  · intro name ver db iv h hle
    refine ⟨by simp [upgrade, h, hle], by simp [upgrade, h, hle,
      dbLookupV_update_self], ?_⟩
    intro m hm
    simp [upgrade, h, hle, dbLookupV_update_other db name ver m hm]

/-- C6, witness: with `pkg` installed at version `1.2`, upgrading to `1.2`
is a no-op, and upgrading to `1.10` runs the install and stores `1.10`
(numeric token ordering: 10 > 2). -/
theorem claim_c6_witness :
    upgrade "pkg" "1.2" [("pkg", "1.2")] = ([("pkg", "1.2")], false)
    ∧ (upgrade "pkg" "1.10" [("pkg", "1.2")]).2 = true
    ∧ dbLookupV (upgrade "pkg" "1.10" [("pkg", "1.2")]).1 "pkg" = some "1.10" :=
  ⟨claim_c6.2.1 "pkg" "1.2" _ "1.2" (by decide) (by decide),
   (claim_c6.2.2 "pkg" "1.10" _ "1.2" (by decide) (by decide)).1,
   (claim_c6.2.2 "pkg" "1.10" _ "1.2" (by decide) (by decide)).2.1⟩

/-- Word character for Python's regex class `\w` (ASCII model):
alphanumeric or underscore. -/
def isWordChar (c : Char) : Bool := isAsciiAlnum c || decide (c = '_')

/-- Environments and string-keyed dictionaries are association lists. -/
abbrev Env := List (String × String)

/-- First-match lookup in an association-list dictionary. -/
def envLookup (e : Env) (k : String) : Option String :=
  (e.find? (fun p => p.1 == k)).map (fun p => p.2)

/-- Opening brace character of the dollar-brace variable syntax. -/
def lbrace : Char := Char.ofNat 123

/-- Closing brace character of the dollar-brace variable syntax. -/
def rbrace : Char := Char.ofNat 125

/-- Worker for `os.path.expandvars`: scan for `$name` (a run of word
characters) or a dollar-brace form (any characters up to the closing
brace); a variable found in `env` is replaced by its value, whose text is
not rescanned; unknown variables and non-matching dollars are kept
literally.  The fuel starts at the length of the scanned list, which every
step strictly consumes. -/
def expandVarsAux (env : Env) : Nat → List Char → List Char
  | 0, l => l
  | _ + 1, [] => []
  | fuel + 1, c :: cs =>
    if c = '$' then
      match cs with
      | c2 :: cs2 =>
        if c2 = lbrace then
          let nm := cs2.takeWhile (fun d => !(d = rbrace))
          match cs2.dropWhile (fun d => !(d = rbrace)) with
          | _ :: tail =>
            match envLookup env (String.mk nm) with
            | some v => v.data ++ expandVarsAux env fuel tail
            | none => '$' :: lbrace :: (nm ++ rbrace :: expandVarsAux env fuel tail)
          | [] => '$' :: expandVarsAux env fuel cs
        else
          let nm := cs.takeWhile isWordChar
          if nm.isEmpty then c :: expandVarsAux env fuel cs
          else
            match envLookup env (String.mk nm) with
            | some v => v.data ++ expandVarsAux env fuel (cs.dropWhile isWordChar)
            | none => '$' :: (nm ++ expandVarsAux env fuel (cs.dropWhile isWordChar))
      | [] => ['$']
    else c :: expandVarsAux env fuel cs

/-- Embedding of `os.path.expandvars`, reading variable values from the
given environment. -/
def expandVars (env : Env) (s : String) : String :=
  String.mk (expandVarsAux env s.data.length s.data)

/-- Python dict assignment `d[k] = v`: replace the value in place when the
key exists, else append the new binding. -/
def envSet (e : Env) (k v : String) : Env :=
  if (e.find? (fun p => p.1 == k)).isSome then
    e.map (fun p => if p.1 == k then (k, v) else p)
  else e ++ [(k, v)]

/-- Python `dict.update`: assign every binding of `upd` into `base`. -/
def envUpdate (base upd : Env) : Env :=
  upd.foldl (fun e p => envSet e p.1 p.2) base

/-- Embedding of `SrcPkg._expand_env`: copy the process environment,
overlay the recipe's env map, overlay the builder-injected variables, then
rewrite every value with `os.path.expandvars` — which reads the PROCESS
environment (`os.environ`), not the overlaid dictionary. -/
def expandEnvCode (procEnv renv extra : Env) : Env :=
  let base := envUpdate (envUpdate procEnv renv) extra
  base.map (fun p => (p.1, expandVars procEnv p.2))

/-- Follows the spec's words for C4 ("expanding `$VAR` ... using the
current accumulated environment"), for comparison with `expandEnvCode`:
the values are expanded against the overlaid map itself. -/
def expandEnvSpec (procEnv renv extra : Env) : Env :=
  let base := envUpdate (envUpdate procEnv renv) extra
  base.map (fun p => (p.1, expandVars base p.2))

/-- C4, counterexample.  With an empty process environment, the recipe env
value `$DESTDIR` is kept literally by the code (`os.path.expandvars`
consults `os.environ`, where `DESTDIR` is absent), while the claim's
accumulated-environment reading would expand it to the builder-injected
staging directory. -/
theorem claim_c4_counterexample :
    envLookup (expandEnvCode [] [("X", "$DESTDIR")] [("DESTDIR", "/tmp/d")]) "X"
      = some "$DESTDIR"
    ∧ envLookup (expandEnvSpec [] [("X", "$DESTDIR")] [("DESTDIR", "/tmp/d")]) "X"
      = some "/tmp/d" := by decide

theorem envLookup_mapValues (e : Env) (f : String → String) (k : String) :
    envLookup (e.map (fun p => (p.1, f p.2))) k = (envLookup e k).map f := by
  induction e with
  | nil => rfl
  | cons q qs ih =>
    cases hq : (q.1 == k) with
    | true => simp [envLookup, List.find?, hq]
    | false =>
      simpa [envLookup, List.find?, hq] using ih

theorem envLookup_envSet_self (e : Env) (k v : String) :
    envLookup (envSet e k v) k = some v := by
  unfold envSet
  split
  · rename_i hsome
    induction e with
    | nil => simp [envLookup] at hsome
    | cons q qs ih =>
      cases hq : (q.1 == k) with
      | true => simp [envLookup, List.find?, hq]
      | false =>
        have hqs : (qs.find? (fun p => p.1 == k)).isSome := by
          simpa [List.find?, hq] using hsome
        simpa [envLookup, List.find?, hq] using ih hqs
  · induction e with
    | nil => simp [envLookup, List.find?]
    | cons q qs ih =>
      rename_i hnone
      cases hq : (q.1 == k) with
      | true => simp [List.find?, hq] at hnone
      | false =>
        have hqs : ¬(qs.find? (fun p => p.1 == k)).isSome := by
          simpa [List.find?, hq] using hnone
        simpa [envLookup, List.find?, hq] using ih hqs

theorem expandVars_dollar_destdir (env : Env) (h : envLookup env "DESTDIR" = none) :
    expandVars env "$DESTDIR" = "$DESTDIR" := by
  unfold expandVars
  rw [show ("$DESTDIR" : String).data = '$' :: "DESTDIR".data from rfl]
  rw [show ('$' :: "DESTDIR".data).length = 7 + 1 from rfl]
  rw [expandVarsAux]
  norm_num [lbrace]
  rw [show List.takeWhile isWordChar ("DESTDIR".data) = "DESTDIR".data from by decide]
  rw [show String.mk ("DESTDIR".data) = "DESTDIR" from rfl]
  rw [h]
  rw [show List.dropWhile isWordChar ("DESTDIR".data) = [] from by decide]
  rw [show expandVarsAux env 7 [] = [] from rfl]
  rfl

/-- C4, amended.  The environment passed to each build phase is the
process environment overlaid by the recipe's env map, overlaid by the
builder-injected `DESTDIR` — but `$VAR` expansion in the values consults
the PROCESS environment only: every value of the result is the merged
value expanded against the process environment, the injected `DESTDIR`
itself is present (expanded against the process environment), and a value
referencing a variable absent from the process environment — such as the
injected `DESTDIR` — keeps the reference literally instead of receiving
the accumulated value. -/
theorem claim_c4_amended (procEnv renv : Env) (d k : String) :
    (envLookup (expandEnvCode procEnv renv [("DESTDIR", d)]) k
       = (envLookup (envUpdate (envUpdate procEnv renv) [("DESTDIR", d)]) k).map
           (expandVars procEnv))
    ∧ envLookup (expandEnvCode procEnv renv [("DESTDIR", d)]) "DESTDIR"
       = some (expandVars procEnv d)
    ∧ (envLookup procEnv "DESTDIR" = none →
        expandVars procEnv "$DESTDIR" = "$DESTDIR") := by
  refine ⟨?_, ?_, ?_⟩
  · exact envLookup_mapValues _ (expandVars procEnv) k
  · rw [expandEnvCode, envLookup_mapValues]
    rw [show envUpdate (envUpdate procEnv renv) [("DESTDIR", d)]
         = envSet (envUpdate procEnv renv) "DESTDIR" d from rfl]
    rw [envLookup_envSet_self]
    rfl
  · exact expandVars_dollar_destdir procEnv

/-- C4, witness: a concrete process environment with `HOME` only; the
merged map is value-expanded against it, `DESTDIR` maps to the staging
directory, and a literal `$DESTDIR` reference survives expansion. -/
theorem claim_c4_witness :
    (envLookup (expandEnvCode [("HOME", "/root")] [("X", "$DESTDIR")]
        [("DESTDIR", "/tmp/d")]) "X"
      = (envLookup (envUpdate (envUpdate [("HOME", "/root")] [("X", "$DESTDIR")])
          [("DESTDIR", "/tmp/d")]) "X").map (expandVars [("HOME", "/root")]))
    ∧ expandVars [("HOME", "/root")] "$DESTDIR" = "$DESTDIR" :=
  ⟨(claim_c4_amended [("HOME", "/root")] [("X", "$DESTDIR")] "/tmp/d" "X").1,
   (claim_c4_amended [("HOME", "/root")] [("X", "$DESTDIR")] "/tmp/d" "X").2.2
     (by decide)⟩

/-- Abstract file contents. -/
abbrev Bytes := List Nat

/-- Sources cache directory, keyed by archive filename. -/
abbrev Cache := List (String × Bytes)

/-- Embedding of the `SourceSpec` dataclass. -/
structure SourceSpec where
  url : Option String
  sha256 : Option String
  type : String
deriving DecidableEq, Repr

/-- Error kinds raised by the fetcher and extractor. -/
inductive FetchErr where
  | noUrl
  | noDownloader
  | networkError
  | checksumMismatch
  | unsupportedArchive
deriving DecidableEq, Repr

/-- Observable events of the fetch-and-extract pipeline. -/
inductive BEvent where
  | downloadedFile (name : String)
  | checksumVerified (name : String)
  | gitClone (url : String)
  | gitFetchAll
  | extracted (root : String)
deriving DecidableEq, Repr

instance {ε α : Type} [DecidableEq ε] [DecidableEq α] : DecidableEq (Except ε α) :=
  fun a b =>
    match a, b with
    | Except.ok x, Except.ok y =>
      match decEq x y with
      | isTrue h => isTrue (congrArg Except.ok h)
      | isFalse h => isFalse (fun h2 => h (Except.ok.inj h2))
    | Except.error e, Except.error f =>
      match decEq e f with
      | isTrue h => isTrue (congrArg Except.error h)
      | isFalse h => isFalse (fun h2 => h (Except.error.inj h2))
    | Except.ok _, Except.error _ => isFalse (fun h2 => Except.noConfusion h2)
    | Except.error _, Except.ok _ => isFalse (fun h2 => Except.noConfusion h2)

/-- Outcome of a fetch: the cache afterwards, the events performed, and
the returned path or the raised error. -/
structure DlOut where
  cache : Cache
  events : List BEvent
  result : Except FetchErr String
deriving DecidableEq, Repr

/-- Python's `str.split` on one separator character, keeping empty
pieces. -/
def splitChar (sep : Char) : List Char → List String
  | [] => [""]
  | c :: cs =>
    if c = sep then "" :: splitChar sep cs
    else
      match splitChar sep cs with
      | [] => [String.mk [c]]
      | t :: ts => String.mk (c :: t.data) :: ts

/-- Cache filename of an archive URL: its trailing path component,
`src.url.split("/")[-1]`. -/
def srcCacheName (url : String) : String := (splitChar '/' url.data).getLastD ""

/-- Lookup of a cached file by name. -/
def cacheFind (cache : Cache) (n : String) : Option Bytes :=
  (cache.find? (fun p => p.1 == n)).map (fun p => p.2)

/-- Checksum gate at the end of the archive branch of `SrcPkg.download`:
with a declared SHA-256, hash the cached file and compare with the
declared string; a mismatch raises and leaves the cache untouched. -/
def afterFetch (hash : Bytes → String) (src : SourceSpec) (cache : Cache)
    (evs : List BEvent) (fname : String) : DlOut :=
  match src.sha256 with
  | none => ⟨cache, evs, Except.ok fname⟩
  | some s =>
    match cacheFind cache fname with
    | none => ⟨cache, evs, Except.error FetchErr.networkError⟩
    | some bs =>
      if hash bs == s then
        ⟨cache, evs ++ [BEvent.checksumVerified fname], Except.ok fname⟩
      else ⟨cache, evs, Except.error FetchErr.checksumMismatch⟩

/-- Embedding of `SrcPkg.download`.  `hash` abstracts SHA-256, `hasDl`
tells whether wget or curl is available, `net` gives the bytes a download
of a URL would produce (`none` = network failure), `gitDestExists` tells
whether `work/src` already holds a clone.  The git branch clones or
fetches and never consults the checksum; the archive branch downloads on
a cache miss and then applies the checksum gate whether or not the file
was freshly downloaded. -/
def download (hash : Bytes → String) (hasDl : Bool) (net : String → Option Bytes)
    (gitDestExists : Bool) (src : SourceSpec) (cache : Cache) : DlOut :=
  if src.type == "git" then
    match src.url with
    | none => ⟨cache, [], Except.error FetchErr.noUrl⟩
    | some repo =>
      if gitDestExists then ⟨cache, [BEvent.gitFetchAll], Except.ok "work/src"⟩
      else ⟨cache, [BEvent.gitClone repo], Except.ok "work/src"⟩
  else
    match src.url with
    | none => ⟨cache, [], Except.error FetchErr.noUrl⟩
    | some u =>
      let fname := srcCacheName u
      match cacheFind cache fname with
      | some _ => afterFetch hash src cache [] fname
      | none =>
        if hasDl then
          match net u with
          | some bs =>
            afterFetch hash src ((fname, bs) :: cache)
              [BEvent.downloadedFile fname] fname
          | none => ⟨cache, [], Except.error FetchErr.networkError⟩
        else ⟨cache, [], Except.error FetchErr.noDownloader⟩

/-- Python's `str.endswith` on the character lists of the two strings. -/
def strEndsWith (s suf : String) : Bool :=
  s.data.reverse.take suf.data.length == suf.data.reverse

/-- Archive formats dispatched by `SrcPkg.extract`. -/
def supportedArchive (name : String) : Bool :=
  strEndsWith name ".tar.gz" || strEndsWith name ".tgz" ||
  strEndsWith name ".tar.bz2" || strEndsWith name ".tbz2" ||
  strEndsWith name ".tar.xz" || strEndsWith name ".txz" ||
  strEndsWith name ".tar.zst" || strEndsWith name ".zip" ||
  strEndsWith name ".7z" || strEndsWith name ".7zip"

/-- Single-root collapse of `SrcPkg.extract`: `entries` lists the cleared
destination directory after unpacking as (name, is_dir) pairs; exactly one
entry that is a directory becomes the source root, anything else keeps the
destination itself. -/
def collapseRoot (dest : String) (entries : List (String × Bool)) : String :=
  match entries with
  | [e] => if e.2 then dest ++ "/" ++ e.1 else dest
  | _ => dest

/-- Embedding of `SrcPkg.extract` on an archive file: dispatch on the
filename suffix, unpack into the cleared destination (producing
`entries`), then apply the single-root collapse. -/
def extractArchive (name dest : String) (entries : List (String × Bool)) :
    Except FetchErr String :=
  if supportedArchive name then Except.ok (collapseRoot dest entries)
  else Except.error FetchErr.unsupportedArchive

/-- Recipe fields consumed by the fetch stage of `SrcPkg.build`. -/
structure PackageMeta where
  name : String
  version : String
  source : SourceSpec
  git : List (String × String)
deriving Repr

/-- Source actually fetched by `SrcPkg.build`: the recipe's source,
except that a git-typed source is replaced by a fresh `SourceSpec` whose
URL is the recipe's `git.repo` entry, with no checksum. -/
def buildFetchSpec (meta : PackageMeta) : SourceSpec :=
  if meta.source.type == "git" then
    { url := envLookup meta.git "repo", sha256 := none, type := "git" }
  else meta.source

/-- Fetch-then-extract prefix of `SrcPkg.build`: download, then extract
the returned path (a git checkout directory is returned as-is; an archive
goes through suffix dispatch and single-root collapse).  Any fetch error
aborts before extraction. -/
def fetchAndExtract (hash : Bytes → String) (hasDl : Bool)
    (net : String → Option Bytes) (gitDestExists : Bool) (meta : PackageMeta)
    (cache : Cache) (entries : List (String × Bool)) : DlOut :=
  let d := download hash hasDl net gitDestExists (buildFetchSpec meta) cache
  match d.result with
  | Except.error _ => d
  | Except.ok path =>
    if (buildFetchSpec meta).type == "git" then
      ⟨d.cache, d.events ++ [BEvent.extracted path], Except.ok path⟩
    else
      match extractArchive path "work/src" entries with
      | Except.error e => ⟨d.cache, d.events, Except.error e⟩
      | Except.ok root => ⟨d.cache, d.events ++ [BEvent.extracted root], Except.ok root⟩

/-- Bytes the checksum gate will hash: the cached file when the name is
already in the sources cache, else the bytes a fresh download yields. -/
def effectiveBytes (cache : Cache) (net : String → Option Bytes) (u : String) :
    Option Bytes :=
  match cacheFind cache (srcCacheName u) with
  | some b => some b
  | none => net u

theorem afterFetch_spec (hash : Bytes → String) (src : SourceSpec) (cache : Cache)
    (evs : List BEvent) (fname : String) (s : String) (bs : Bytes)
    (hsha : src.sha256 = some s) (hcache : cacheFind cache fname = some bs) :
    afterFetch hash src cache evs fname
      = if hash bs = s then
          ⟨cache, evs ++ [BEvent.checksumVerified fname], Except.ok fname⟩
        else ⟨cache, evs, Except.error FetchErr.checksumMismatch⟩ := by
  unfold afterFetch
  rw [hsha, hcache]
  by_cases hh : hash bs = s
  · simp [hh]
  · simp [hh]

theorem cacheFind_cons_self (cache : Cache) (fname : String) (bs : Bytes) :
    cacheFind ((fname, bs) :: cache) fname = some bs := by
  simp [cacheFind, List.find?]


theorem fetchAndExtract_error (hash : Bytes → String) (hasDl : Bool)
    (net : String → Option Bytes) (gde : Bool) (meta : PackageMeta)
    (cache : Cache) (entries : List (String × Bool)) (e : FetchErr)
    (h : (download hash hasDl net gde (buildFetchSpec meta) cache).result
          = Except.error e) :
    fetchAndExtract hash hasDl net gde meta cache entries
      = download hash hasDl net gde (buildFetchSpec meta) cache := by
  simp only [fetchAndExtract]
  rw [h]

/-- C1.  For an archive-typed source with a declared SHA-256, the fetch
succeeds exactly when the SHA-256 of the file bytes (the cached file on a
cache hit, the downloaded bytes on a miss) equals the declared value; the
verification happens in both cases; the file remains in the sources cache
whatever the comparison yields; and on a mismatch the fetch raises the
checksum error and the build pipeline records no extraction. -/
theorem claim_c1 (hash : Bytes → String) (net : String → Option Bytes)
    (gde : Bool) (meta : PackageMeta) (cache : Cache)
    (entries : List (String × Bool)) (u s : String) (bs : Bytes)
    (htype : meta.source.type = "archive")
    (hurl : meta.source.url = some u)
    (hsha : meta.source.sha256 = some s)
    (hbytes : effectiveBytes cache net u = some bs) :
    ((download hash true net gde meta.source cache).result
        = Except.ok (srcCacheName u) ↔ hash bs = s)
    ∧ cacheFind (download hash true net gde meta.source cache).cache
        (srcCacheName u) = some bs
    ∧ (BEvent.checksumVerified (srcCacheName u)
          ∈ (download hash true net gde meta.source cache).events ↔ hash bs = s)
    ∧ (hash bs ≠ s →
        (download hash true net gde meta.source cache).result
          = Except.error FetchErr.checksumMismatch
        ∧ (fetchAndExtract hash true net gde meta cache entries).result
          = Except.error FetchErr.checksumMismatch
        ∧ ∀ r, BEvent.extracted r
            ∉ (fetchAndExtract hash true net gde meta cache entries).events) := by
  have hng : (meta.source.type == "git") = false := by
    rw [htype]
    rfl
  have hbf : buildFetchSpec meta = meta.source := by
    simp [buildFetchSpec, hng]
  rcases hc : cacheFind cache (srcCacheName u) with _ | b
  · have hnet : net u = some bs := by
      have h2 := hbytes
      rw [effectiveBytes, hc] at h2
      exact h2
    have hdl : download hash true net gde meta.source cache
        = afterFetch hash meta.source ((srcCacheName u, bs) :: cache)
            [BEvent.downloadedFile (srcCacheName u)] (srcCacheName u) := by
      simp [download, hng, hurl, hc, hnet]
    have hcf := cacheFind_cons_self cache (srcCacheName u) bs
    have haf := afterFetch_spec hash meta.source ((srcCacheName u, bs) :: cache)
      [BEvent.downloadedFile (srcCacheName u)] (srcCacheName u) s bs hsha hcf
    rw [hdl, haf]
    by_cases hh : hash bs = s
    · rw [if_pos hh]
      exact ⟨by simp [hh], by exact hcf, by simp [hh], fun hne => absurd hh hne⟩
    · rw [if_neg hh]
      have herr : (download hash true net gde (buildFetchSpec meta) cache).result
          = Except.error FetchErr.checksumMismatch := by
        rw [hbf, hdl, haf, if_neg hh]
      have hfe := fetchAndExtract_error hash true net gde meta cache entries _ herr
      refine ⟨?_, by exact hcf, by simp [hh], ?_⟩
      · constructor
        · intro hres
          exact absurd hres (by simp)
        · intro hhs
          exact absurd hhs hh
      · intro _
        refine ⟨rfl, ?_, ?_⟩
        · rw [hfe, hbf, hdl, haf, if_neg hh]
        · rw [hfe, hbf, hdl, haf, if_neg hh]
          intro r
          simp
  · have hb : b = bs := by
      have h2 := hbytes
      rw [effectiveBytes, hc] at h2
      exact Option.some.inj h2
    subst hb
    have hdl : download hash true net gde meta.source cache
        = afterFetch hash meta.source cache [] (srcCacheName u) := by
      simp [download, hng, hurl, hc]
    have haf := afterFetch_spec hash meta.source cache [] (srcCacheName u) s b
      hsha hc
    rw [hdl, haf]
    by_cases hh : hash b = s
    · rw [if_pos hh]
      exact ⟨by simp [hh], by exact hc, by simp [hh], fun hne => absurd hh hne⟩
    · rw [if_neg hh]
      have herr : (download hash true net gde (buildFetchSpec meta) cache).result
          = Except.error FetchErr.checksumMismatch := by
        rw [hbf, hdl, haf, if_neg hh]
      have hfe := fetchAndExtract_error hash true net gde meta cache entries _ herr
      refine ⟨?_, by exact hc, by simp [hh], ?_⟩
      · constructor
        · intro hres
          exact absurd hres (by simp)
        · intro hhs
          exact absurd hhs hh
      · intro _
        refine ⟨rfl, ?_, ?_⟩
        · rw [hfe, hbf, hdl, haf, if_neg hh]
        · rw [hfe, hbf, hdl, haf, if_neg hh]
          intro r
          simp

/-- C1, witness: downloading bytes `[7]` whose hash is `"H7"`.  With the
declared checksum `"H7"` the fetch returns the cache path; with the
declared checksum `"H0"` it raises the checksum mismatch. -/
theorem claim_c1_witness :
    (download (fun b => if b = [7] then "H7" else "HX") true (fun _ => some [7])
        false (⟨some "http://x/f.tgz", some "H7", "archive"⟩ : SourceSpec) []).result
      = Except.ok "f.tgz"
    ∧ (download (fun b => if b = [7] then "H7" else "HX") true (fun _ => some [7])
        false (⟨some "http://x/f.tgz", some "H0", "archive"⟩ : SourceSpec) []).result
      = Except.error FetchErr.checksumMismatch := by
  constructor
  · exact (claim_c1 (fun b => if b = [7] then "H7" else "HX") (fun _ => some [7])
      false ⟨"hello", "1.0", ⟨some "http://x/f.tgz", some "H7", "archive"⟩, []⟩ []
      [("d", true)] "http://x/f.tgz" "H7" [7] rfl rfl rfl (by decide)).1.mpr
      (by decide)
  · exact ((claim_c1 (fun b => if b = [7] then "H7" else "HX") (fun _ => some [7])
      false ⟨"hello", "1.0", ⟨some "http://x/f.tgz", some "H0", "archive"⟩, []⟩ []
      [("d", true)] "http://x/f.tgz" "H0" [7] rfl rfl rfl (by decide)).2.2.2
      (by decide)).1

/-- C9.  For every supported archive, when the cleared destination holds
after unpacking exactly one entry and that entry is a directory, the
extractor returns that directory; in every other case (zero entries,
several entries, or a single non-directory entry) it returns the
destination itself. -/
theorem claim_c9 (name dest : String) (entries : List (String × Bool))
    (hsup : supportedArchive name = true) :
    (∀ n, entries = [(n, true)] →
        extractArchive name dest entries = Except.ok (dest ++ "/" ++ n))
    ∧ ((∀ n, entries ≠ [(n, true)]) →
        extractArchive name dest entries = Except.ok dest) := by
  constructor
  · rintro n rfl
    simp [extractArchive, hsup, collapseRoot]
  · intro h
    unfold extractArchive
    rw [if_pos hsup]
    rcases entries with _ | ⟨⟨n, b⟩, rest⟩
    · rfl
    · rcases rest with _ | ⟨q, rest2⟩
      · cases b with
        | false => rfl
        | true => exact absurd rfl (h n)
      · rfl

/-- C9, witness: a `.tar.gz` whose unpacking yields the single directory
`d` collapses to `work/src/d`; one with two top-level entries keeps
`work/src`. -/
theorem claim_c9_witness :
    extractArchive "f.tar.gz" "work/src" [("d", true)]
      = Except.ok "work/src/d"
    ∧ extractArchive "f.tar.gz" "work/src" [("a", true), ("b", false)]
      = Except.ok "work/src" :=
  ⟨(claim_c9 "f.tar.gz" "work/src" [("d", true)] (by decide)).1 "d" rfl,
   (claim_c9 "f.tar.gz" "work/src" [("a", true), ("b", false)] (by decide)).2
     (by
        intro n h
        simp at h)⟩

/-- C10.  For a git-typed source, the build fetches using the URL from
the recipe's `git.repo` entry — the constructed source spec carries no
checksum regardless of what `source.sha256` or `source.url` declare —
and the download clones on a fresh work tree or fetches into an existing
one, leaving the sources cache untouched and performing no checksum
verification. -/
theorem claim_c10 (hash : Bytes → String) (hasDl : Bool)
    (net : String → Option Bytes) (gde : Bool) (meta : PackageMeta)
    (cache : Cache) (u : String)
    (htype : meta.source.type = "git")
    (hrepo : envLookup meta.git "repo" = some u) :
    buildFetchSpec meta = ⟨some u, none, "git"⟩
    ∧ (download hash hasDl net gde (buildFetchSpec meta) cache).cache = cache
    ∧ (download hash hasDl net gde (buildFetchSpec meta) cache).result
        = Except.ok "work/src"
    ∧ (∀ f, BEvent.checksumVerified f
        ∉ (download hash hasDl net gde (buildFetchSpec meta) cache).events)
    ∧ (download hash hasDl net gde (buildFetchSpec meta) cache).events
        = (if gde then [BEvent.gitFetchAll] else [BEvent.gitClone u]) := by
  have hbf : buildFetchSpec meta = ⟨some u, none, "git"⟩ := by
    simp [buildFetchSpec, htype, hrepo]
  rw [hbf]
  refine ⟨rfl, ?_, ?_, ?_, ?_⟩ <;> cases gde <;> simp [download]

/-- C10, witness: a recipe whose source block declares both a URL and a
SHA-256 but whose type is git; the fetch uses `git.repo`, carries no
checksum, and clones on the fresh tree. -/
theorem claim_c10_witness :
    buildFetchSpec ⟨"g", "1",
        ⟨some "http://ignored/a.tgz", some "DEADBEEF", "git"⟩,
        [("repo", "http://git/x")]⟩
      = ⟨some "http://git/x", none, "git"⟩
    ∧ (download (fun _ => "H") true (fun _ => some []) false
        (buildFetchSpec ⟨"g", "1",
          ⟨some "http://ignored/a.tgz", some "DEADBEEF", "git"⟩,
          [("repo", "http://git/x")]⟩) []).events
      = [BEvent.gitClone "http://git/x"] :=
  ⟨(claim_c10 (fun _ => "H") true (fun _ => some []) false _ [] "http://git/x"
      rfl (by decide)).1,
   (claim_c10 (fun _ => "H") true (fun _ => some []) false _ [] "http://git/x"
      rfl (by decide)).2.2.2.2⟩

/-- Events of the installer. -/
inductive InstEvent where
  | copy (p : String)
  | dbWrite (n : String)
  | rhook (c : String)
  | ghook (g : String)
deriving DecidableEq, Repr

/-- Error kind of the installer. -/
inductive InstErr where
  | notPrivileged
deriving DecidableEq, Repr

/-- Global post-install hook events: executable drop-in files run in
sorted name order, non-executable entries skipped. -/
def ghookEventsI (hooks : List (String × Bool)) : List InstEvent :=
  ((sortLe (fun a b : String × Bool => strLeB a.1 b.1) hooks).filter
    (fun p => p.2)).map (fun p => InstEvent.ghook p.1)

/-- Embedding of `SrcPkg.install_package_dir`: refuse without effective
UID 0; otherwise copy the staging tree onto the live root (one copy event
per staged file), write the database record, then run the per-recipe
post_install hooks and the global post-install.d hooks. -/
def installPackageDir (euid : Nat) (name : String) (destFiles : List String)
    (postInstall : List String) (ghooks : List (String × Bool)) :
    Except InstErr (List InstEvent) :=
  if euid ≠ 0 then Except.error InstErr.notPrivileged
  else Except.ok (destFiles.map InstEvent.copy
    ++ [InstEvent.dbWrite name]
    ++ postInstall.map InstEvent.rhook
    ++ ghookEventsI ghooks)

/-- C7.  Installation onto the live root requires effective UID 0: with
any other euid the installer aborts with the NotPrivileged error, copying
no file and writing no database record (the error outcome carries no
events); on success the trace is the copies, then the database write,
then only hook events — so the record is written before any post_install
hook runs. -/
theorem claim_c7 (euid : Nat) (name : String) (destFiles : List String)
    (postInstall : List String) (ghooks : List (String × Bool)) :
    (euid ≠ 0 → installPackageDir euid name destFiles postInstall ghooks
        = Except.error InstErr.notPrivileged)
    ∧ (∀ evs, installPackageDir euid name destFiles postInstall ghooks
          = Except.ok evs →
        euid = 0
        ∧ ∃ A B, evs = A ++ InstEvent.dbWrite name :: B
            ∧ (∀ e ∈ A, ∃ p, e = InstEvent.copy p)
            ∧ (∀ e ∈ B, (∃ c, e = InstEvent.rhook c)
                ∨ ∃ g, e = InstEvent.ghook g)) := by
  constructor
  · intro h
    simp [installPackageDir, h]
  · intro evs hok
    by_cases h : euid = 0
    · subst h
      refine ⟨rfl, destFiles.map InstEvent.copy,
        postInstall.map InstEvent.rhook ++ ghookEventsI ghooks, ?_, ?_, ?_⟩
      · have hevs : destFiles.map InstEvent.copy
            ++ [InstEvent.dbWrite name]
            ++ postInstall.map InstEvent.rhook
            ++ ghookEventsI ghooks = evs := by
          simpa [installPackageDir] using hok
        rw [← hevs]
        simp
      · intro e he
        obtain ⟨p, _, rfl⟩ := List.mem_map.mp he
        exact ⟨p, rfl⟩
      · intro e he
        rcases List.mem_append.mp he with h2 | h2
        · obtain ⟨c, _, rfl⟩ := List.mem_map.mp h2
          exact Or.inl ⟨c, rfl⟩
        · obtain ⟨g, _, rfl⟩ := List.mem_map.mp h2
          exact Or.inr ⟨g.1, rfl⟩
    · simp [installPackageDir, h] at hok

/-- C7, witness: a non-root euid is refused; root installs `/usr/bin/x`
with the database write before the one post_install hook. -/
theorem claim_c7_witness :
    (installPackageDir 1000 "hello" ["/usr/bin/x"] ["ldconfig"] []
      = Except.error InstErr.notPrivileged)
    ∧ (0 = 0
        ∧ ∃ A B, [InstEvent.copy "/usr/bin/x", InstEvent.dbWrite "hello",
              InstEvent.rhook "ldconfig"]
            = A ++ InstEvent.dbWrite "hello" :: B
            ∧ (∀ e ∈ A, ∃ p, e = InstEvent.copy p)
            ∧ (∀ e ∈ B, (∃ c, e = InstEvent.rhook c)
                ∨ ∃ g, e = InstEvent.ghook g)) := by
  constructor
  · exact (claim_c7 1000 "hello" ["/usr/bin/x"] ["ldconfig"] []).1 (by decide)
  · exact (claim_c7 0 "hello" ["/usr/bin/x"] ["ldconfig"] []).2
      [InstEvent.copy "/usr/bin/x", InstEvent.dbWrite "hello",
        InstEvent.rhook "ldconfig"] (by decide)

/-- Parent directory of a path string, `pathlib.Path(p).parent` on the
absolute manifest paths: drop the last component; a top-level entry's
parent is the root; a slashless string is returned unchanged (Python
yields the relative `"."`; manifests contain absolute paths only). -/
def parentPath (p : String) : String :=
  match p.data.reverse.dropWhile (fun c => decide (c ≠ '/')) with
  | [] => p
  | _ :: rest => if rest.isEmpty then "/" else String.mk rest.reverse

/-- Filesystem state: the existing regular files and directories. -/
structure FS where
  files : List String
  dirs : List String
deriving DecidableEq, Repr

/-- Python's `any(d.iterdir())`: the directory holds at least one entry. -/
def dirNonEmpty (fs : FS) (d : String) : Bool :=
  fs.files.any (fun q => parentPath q == d)
    || fs.dirs.any (fun q => parentPath q == d)

/-- Events of the removal operation. -/
inductive RmEvent where
  | unlink (p : String)
  | unlinkFail (p : String)
  | skip (p : String)
  | rmdir (d : String)
  | rhook (c : String)
  | ghook (g : String)
  | dbUnlink (n : String)
  | warned (n : String)
deriving DecidableEq, Repr

/-- Walk up the parent chain, removing directories that have become
empty, stopping at the root or at the first non-empty directory.  The
fuel bounds the chain length (each parent step shortens the path). -/
def walkUp (fs : FS) : Nat → String → FS × List RmEvent
  | 0, _ => (fs, [])
  | fuel + 1, d =>
    if d == "/" then (fs, [])
    else if dirNonEmpty fs d then (fs, [])
    else
      let fs2 : FS := ⟨fs.files, fs.dirs.erase d⟩
      let r := walkUp fs2 fuel (parentPath d)
      (r.1, RmEvent.rmdir d :: r.2)

/-- One manifest path of `SrcPkg.remove`: unlink the file if it exists (a
raised error is logged and the loop continues with the next path), then
walk up from its parent pruning empty directories. -/
def removeOne (oracle : String → Bool) (fs : FS) (f : String) :
    FS × List RmEvent :=
  if oracle f then (fs, [RmEvent.unlinkFail f])
  else
    let isf := fs.files.contains f
    let fs2 : FS := if isf then ⟨fs.files.erase f, fs.dirs⟩ else fs
    let ev1 : List RmEvent := if isf then [RmEvent.unlink f] else [RmEvent.skip f]
    let r := walkUp fs2 (f.data.length + 1) (parentPath f)
    (r.1, ev1 ++ r.2)

/-- The per-path loop of `SrcPkg.remove` over the ordered manifest. -/
def removeFiles (oracle : String → Bool) (fs : FS) :
    List String → FS × List RmEvent
  | [] => (fs, [])
  | f :: rest =>
    let r1 := removeOne oracle fs f
    let r2 := removeFiles oracle r1.1 rest
    (r2.1, r1.2 ++ r2.2)

/-- Python's `sorted(files, key=len, reverse=True)`: manifest paths in
descending length order. -/
def sortDescLen (l : List String) : List String :=
  sortLe (fun a b : String => decide (b.data.length ≤ a.data.length)) l

/-- Installed-record fields consumed by removal. -/
structure DbRec where
  name : String
  files : List String
  postRemove : List String
deriving DecidableEq, Repr

/-- Global post-remove hook events (executable drop-ins in sorted name
order, non-executable entries skipped). -/
def ghookEventsR (hooks : List (String × Bool)) : List RmEvent :=
  ((sortLe (fun a b : String × Bool => strLeB a.1 b.1) hooks).filter
    (fun p => p.2)).map (fun p => RmEvent.ghook p.1)

/-- Embedding of `SrcPkg.remove`: warn and stop when the name is not
installed, else delete the record's paths in descending length order with
parent pruning, then run the per-recipe post_remove hooks, then the
global post-remove.d hooks, then unlink the database record. -/
def removePkg (oracle : String → Bool) (ghooks : List (String × Bool))
    (db : List DbRec) (fs : FS) (name : String) :
    List DbRec × FS × List RmEvent :=
  match db.find? (fun r => r.name == name) with
  | none => (db, fs, [RmEvent.warned name])
  | some pr =>
    let r := removeFiles oracle fs (sortDescLen pr.files)
    (db.filter (fun q => !(q.name == name)), r.1,
      r.2 ++ pr.postRemove.map RmEvent.rhook ++ ghookEventsR ghooks
        ++ [RmEvent.dbUnlink name])

/-- Manifest path handled by a removal event, when there is one. -/
def touched : RmEvent → Option String
  | RmEvent.unlink p => some p
  | RmEvent.unlinkFail p => some p
  | RmEvent.skip p => some p
  | _ => none

/-- Paths handled by a removal trace, in order. -/
def touchedPaths (evs : List RmEvent) : List String := evs.filterMap touched

/-- Events belonging to the per-path phase (file handling and directory
pruning), as opposed to hooks and the database unlink. -/
def isFileEvent : RmEvent → Bool
  | RmEvent.unlink _ => true
  | RmEvent.unlinkFail _ => true
  | RmEvent.skip _ => true
  | RmEvent.rmdir _ => true
  | _ => false

theorem walkUp_events (fuel : Nat) :
    ∀ (fs : FS) (d : String), ∀ e ∈ (walkUp fs fuel d).2,
      ∃ x, e = RmEvent.rmdir x ∧ x ≠ "/" := by
  induction fuel with
  | zero =>
    intro fs d e he
    simp [walkUp] at he
  | succ fuel ih =>
    intro fs d e he
    by_cases hroot : (d == "/") = true
    · simp [walkUp, hroot] at he
    · by_cases hne : dirNonEmpty fs d = true
      · simp only [Bool.not_eq_true] at hroot
        simp [walkUp, hroot, hne] at he
      · simp only [Bool.not_eq_true] at hroot hne
        simp only [walkUp, hroot, hne, Bool.false_eq_true, if_false,
          List.mem_cons] at he
        rcases he with rfl | he2
        · exact ⟨d, rfl, by simpa using hroot⟩
        · exact ih _ _ e he2

theorem filterMap_touched_walkUp (fuel : Nat) (fs : FS) (d : String) :
    List.filterMap touched (walkUp fs fuel d).2 = [] := by
  have h := walkUp_events fuel fs d
  rw [List.filterMap_eq_nil_iff]
  intro e he
  obtain ⟨x, rfl, _⟩ := h e he
  rfl

theorem touchedPaths_removeOne (oracle : String → Bool) (fs : FS) (f : String) :
    touchedPaths (removeOne oracle fs f).2 = [f] := by
  unfold removeOne touchedPaths
  by_cases ho : oracle f = true
  · simp [ho, touched]
  · simp only [Bool.not_eq_true] at ho
    by_cases hf : f ∈ fs.files
    · simp [ho, hf, touched, filterMap_touched_walkUp]
    · simp [ho, hf, touched, filterMap_touched_walkUp]

theorem touchedPaths_removeFiles (oracle : String → Bool) :
    ∀ (l : List String) (fs : FS),
      touchedPaths (removeFiles oracle fs l).2 = l := by
  intro l
  induction l with
  | nil =>
    intro fs
    rfl
  | cons f rest ih =>
    intro fs
    simp only [removeFiles]
    unfold touchedPaths
    rw [List.filterMap_append]
    have h1 := touchedPaths_removeOne oracle fs f
    unfold touchedPaths at h1
    rw [h1]
    have h2 := ih (removeOne oracle fs f).1
    unfold touchedPaths at h2
    rw [h2]
    rfl

theorem removeOne_events (oracle : String → Bool) (fs : FS) (f : String) :
    ∀ e ∈ (removeOne oracle fs f).2,
      isFileEvent e = true ∧ (∀ d, e = RmEvent.rmdir d → d ≠ "/") := by
  intro e he
  unfold removeOne at he
  by_cases ho : oracle f = true
  · simp [ho] at he
    subst he
    exact ⟨rfl, by intro d hd; exact absurd hd (by simp)⟩
  · simp only [Bool.not_eq_true] at ho
    simp only [ho, Bool.false_eq_true, if_false, List.mem_append] at he
    by_cases hf : f ∈ fs.files
    · rcases he with he | he
      · simp [hf] at he
        subst he
        exact ⟨rfl, by intro d hd; exact absurd hd (by simp)⟩
      · have he2 : e ∈ (walkUp ⟨fs.files.erase f, fs.dirs⟩
            (f.data.length + 1) (parentPath f)).2 := by simpa [hf] using he
        obtain ⟨x, rfl, hx⟩ := walkUp_events _ _ _ e he2
        exact ⟨rfl, by intro d hd; cases hd; exact hx⟩
    · rcases he with he | he
      · simp [hf] at he
        subst he
        exact ⟨rfl, by intro d hd; exact absurd hd (by simp)⟩
      · have he2 : e ∈ (walkUp fs (f.data.length + 1) (parentPath f)).2 := by
          simpa [hf] using he
        obtain ⟨x, rfl, hx⟩ := walkUp_events _ _ _ e he2
        exact ⟨rfl, by intro d hd; cases hd; exact hx⟩

theorem removeFiles_events (oracle : String → Bool) :
    ∀ (l : List String) (fs : FS), ∀ e ∈ (removeFiles oracle fs l).2,
      isFileEvent e = true ∧ (∀ d, e = RmEvent.rmdir d → d ≠ "/") := by
  intro l
  induction l with
  | nil =>
    intro fs e he
    simp [removeFiles] at he
  | cons f rest ih =>
    intro fs e he
    simp only [removeFiles, List.mem_append] at he
    rcases he with he | he
    · exact removeOne_events oracle fs f e he
    · exact ih _ e he

/-- C8.  Removing an installed package deletes the record's paths in
descending path-length order (each path is handled exactly once; per-path
failures are logged and never abort the loop; the parent-chain pruning
never touches the root); after the per-path phase come the per-recipe
post_remove hooks, then the global post-remove.d hooks, and the database
record is unlinked last.  An unknown name warns and changes nothing. -/
theorem claim_c8 :
    (∀ (oracle : String → Bool) (ghooks : List (String × Bool)) (db : List DbRec)
        (fs : FS) (name : String),
        db.find? (fun r => r.name == name) = none →
        removePkg oracle ghooks db fs name = (db, fs, [RmEvent.warned name]))
    ∧ (∀ (oracle : String → Bool) (ghooks : List (String × Bool)) (db : List DbRec)
        (fs : FS) (name : String) (pr : DbRec),
        db.find? (fun r => r.name == name) = some pr →
        ∃ fevs,
          removePkg oracle ghooks db fs name
            = (db.filter (fun q => !(q.name == name)),
               (removeFiles oracle fs (sortDescLen pr.files)).1,
               fevs ++ pr.postRemove.map RmEvent.rhook ++ ghookEventsR ghooks
                 ++ [RmEvent.dbUnlink name])
          ∧ List.Perm (touchedPaths fevs) pr.files
          ∧ List.Pairwise (fun a b : String => b.data.length ≤ a.data.length)
              (touchedPaths fevs)
          ∧ (∀ e ∈ fevs, isFileEvent e = true)
          ∧ (∀ d, RmEvent.rmdir d ∈ fevs → d ≠ "/")) := by
  constructor
  · intro oracle ghooks db fs name h
    simp [removePkg, h]
  · intro oracle ghooks db fs name pr h
    refine ⟨(removeFiles oracle fs (sortDescLen pr.files)).2, ?_, ?_, ?_, ?_, ?_⟩
    · simp [removePkg, h]
    · rw [touchedPaths_removeFiles]
      exact sortLe_perm _ pr.files
    · rw [touchedPaths_removeFiles]
      refine List.Pairwise.imp (fun h2 => of_decide_eq_true h2) ?_
      exact pairwise_sortLe _
        (fun a b => by
          rcases Nat.le_total b.data.length a.data.length with h2 | h2
          · exact Or.inl (by simpa using h2)
          · exact Or.inr (by simpa using h2))
        (fun h1 h2 => by
          simp only [decide_eq_true_eq] at *
          omega)
        pr.files
    · intro e he
      exact (removeFiles_events oracle (sortDescLen pr.files) fs e he).1
    · intro d hd
      exact (removeFiles_events oracle (sortDescLen pr.files) fs _ hd).2 d rfl

/-- C8, witness: a record with two files of different path lengths is
removed deepest-first with hooks after the file phase and the database
unlink last; removing an unknown name only warns. -/
theorem claim_c8_witness :
    removePkg (fun _ => false) [("h", true)] [] ⟨[], []⟩ "q"
      = ([], ⟨[], []⟩, [RmEvent.warned "q"])
    ∧ ∃ fevs, removePkg (fun _ => false) [("h", true)]
          [(⟨"p", ["/usr/bin/x", "/usr/share/doc/p/r"], ["echo done"]⟩ : DbRec)]
          ⟨["/usr/bin/x", "/usr/share/doc/p/r"],
           ["/usr", "/usr/bin", "/usr/share", "/usr/share/doc",
            "/usr/share/doc/p"]⟩ "p"
        = ([],
           (removeFiles (fun _ => false)
             ⟨["/usr/bin/x", "/usr/share/doc/p/r"],
              ["/usr", "/usr/bin", "/usr/share", "/usr/share/doc",
               "/usr/share/doc/p"]⟩
             (sortDescLen ["/usr/bin/x", "/usr/share/doc/p/r"])).1,
           fevs ++ [RmEvent.rhook "echo done"] ++ ghookEventsR [("h", true)]
             ++ [RmEvent.dbUnlink "p"])
        ∧ List.Perm (touchedPaths fevs) ["/usr/bin/x", "/usr/share/doc/p/r"]
        ∧ List.Pairwise (fun a b : String => b.data.length ≤ a.data.length)
            (touchedPaths fevs)
        ∧ (∀ e ∈ fevs, isFileEvent e = true)
        ∧ (∀ d, RmEvent.rmdir d ∈ fevs → d ≠ "/") := by
  constructor
  · exact claim_c8.1 (fun _ => false) [("h", true)] [] ⟨[], []⟩ "q" (by decide)
  · exact claim_c8.2 (fun _ => false) [("h", true)]
      [(⟨"p", ["/usr/bin/x", "/usr/share/doc/p/r"], ["echo done"]⟩ : DbRec)]
      ⟨["/usr/bin/x", "/usr/share/doc/p/r"],
       ["/usr", "/usr/bin", "/usr/share", "/usr/share/doc",
        "/usr/share/doc/p"]⟩ "p"
      ⟨"p", ["/usr/bin/x", "/usr/share/doc/p/r"], ["echo done"]⟩ (by decide)

/-- Recipe repository mapping: recipe name to its dependency list (the
repository scan together with the `<dep>.json` working-directory
fallback). -/
abbrev Repo := List (String × List String)

/-- Locate the recipe of a name. -/
def repoLookup (repo : Repo) (n : String) : Option (List String) :=
  (repo.find? (fun p => p.1 == n)).map (fun p => p.2)

/-- Dependency list of a recipe, empty when the recipe is unknown. -/
def depsOf (repo : Repo) (n : String) : List String :=
  (repoLookup repo n).getD []

/-- Resolver state: the installed set (database), the order of database
writes, and the visited set of `_resolve_deps_install_first`. -/
structure RState where
  installed : List String
  order : List String
  visited : List String
deriving DecidableEq, Repr

/-- One database write of `install_from_meta`. -/
def installPkg (n : String) (s : RState) : RState :=
  ⟨n :: s.installed, s.order ++ [n], s.visited⟩

/-- The dependency loop of the resolver, parameterised by the resolve
function for one level deeper: an installed dependency is skipped
without descending; a missing recipe raises the unresolved-dependency
error; otherwise the dependency's own closure is resolved first and the
dependency is installed before the loop moves on. -/
def resolveStep (res : String → List String → RState → Except String RState)
    (repo : Repo) : List String → RState → Except String RState
  | [], s => Except.ok s
  | d :: ds, s =>
    if d ∈ s.installed then resolveStep res repo ds s
    else
      match repoLookup repo d with
      | none => Except.error "UnresolvedDependency"
      | some ddeps =>
        match res d ddeps s with
        | Except.error e => Except.error e
        | Except.ok s2 => resolveStep res repo ds (installPkg d s2)

/-- Embedding of `SrcPkg._resolve_deps_install_first` on one recipe:
return at once when the name was already visited, else mark it visited
and process its dependency list.  The fuel bounds the recursion depth;
any fuel above the number of distinct recipe names is enough, since
every nesting level adds a new name to the visited set. -/
def resolveFuel (repo : Repo) : Nat → String → List String → RState →
    Except String RState
  | 0, _, _, _ => Except.error "fuel exhausted"
  | fuel + 1, name, deps, s =>
    if name ∈ s.visited then Except.ok s
    else resolveStep (resolveFuel repo fuel) repo deps
      ⟨s.installed, s.order, name :: s.visited⟩

/-- The dependency loop at a given fuel. -/
def resolveGo (repo : Repo) (fuel : Nat) : List String → RState →
    Except String RState :=
  resolveStep (resolveFuel repo fuel) repo

/-- Embedding of `cmd_install`: resolve and install the dependency
closure of the target recipe, then install the target itself. -/
def cmdInstall (repo : Repo) (fuel : Nat) (target : String)
    (tdeps : List String) (init : List String) : Except String RState :=
  match resolveFuel repo fuel target tdeps ⟨init, [], []⟩ with
  | Except.error e => Except.error e
  | Except.ok s => Except.ok (installPkg target s)

/-- Dependency soundness of an installation stack (most recent write
first): every entry's dependencies lie below it or were initially
installed. -/
def stackOK (repo : Repo) (init : List String) : List String → Prop
  | [] => True
  | n :: rest => (∀ d ∈ depsOf repo n, d ∈ rest ++ init) ∧ stackOK repo init rest

/-- Resolver-state invariant: the installed set is exactly the write
stack on top of the initial set, and the write stack is
dependency-sound. -/
def RInv (repo : Repo) (init : List String) (s : RState) : Prop :=
  s.installed = s.order.reverse ++ init ∧ stackOK repo init s.order.reverse

/-- Bound on the ranks of visited-but-uninstalled names; such names are
exactly the recipes whose resolve call is still on the stack. -/
def VisBound (rank : String → Nat) (b : Nat) (s : RState) : Prop :=
  ∀ v ∈ s.visited, v ∈ s.installed ∨ b ≤ rank v

/-- Conclusion bundle for a successful run of the dependency loop. -/
def GoPost (repo : Repo) (init : List String) (ds : List String)
    (s s2 : RState) : Prop :=
  RInv repo init s2
  ∧ (∀ x ∈ s.installed, x ∈ s2.installed)
  ∧ (∃ t, s2.order = s.order ++ t)
  ∧ (∀ v ∈ s2.visited, v ∈ s2.installed ∨ v ∈ s.visited)
  ∧ (∀ d ∈ ds, d ∈ s2.installed)
  ∧ (∀ x ∈ s2.order, x ∈ s.order ∨ x ∉ s.installed)
  ∧ (∀ v ∈ s.visited, v ∈ s2.visited)

/-- Conclusion bundle for a successful resolve of one recipe. -/
def RfPost (repo : Repo) (init : List String) (name : String)
    (deps : List String) (s s2 : RState) : Prop :=
  RInv repo init s2
  ∧ (∀ x ∈ s.installed, x ∈ s2.installed)
  ∧ (∃ t, s2.order = s.order ++ t)
  ∧ (∀ v ∈ s2.visited, v ∈ s2.installed ∨ v ∈ s.visited ∨ v = name)
  ∧ (name ∈ s.visited → s2 = s)
  ∧ (name ∉ s.visited → ∀ d ∈ deps, d ∈ s2.installed)
  ∧ (∀ x ∈ s2.order, x ∈ s.order ∨ x ∉ s.installed)
  ∧ (∀ v ∈ s.visited, v ∈ s2.visited)

/-- Hypothesis template of the resolve lemma at a given fuel. -/
def RfGood (repo : Repo) (rank : String → Nat) (init : List String)
    (fuel : Nat) : Prop :=
  ∀ (name : String) (deps : List String) (s s2 : RState),
    resolveFuel repo fuel name deps s = Except.ok s2 →
    RInv repo init s →
    VisBound rank (rank name) s →
    (∀ d ∈ deps, rank d < rank name) →
    RfPost repo init name deps s s2

theorem repoLookup_mem {repo : Repo} {n : String} {ds : List String}
    (h : repoLookup repo n = some ds) : (n, ds) ∈ repo := by
  unfold repoLookup at h
  rcases hf : repo.find? (fun p => p.1 == n) with _ | p
  · rw [hf] at h
    simp at h
  · rw [hf] at h
    have hmem := List.mem_of_find?_eq_some hf
    have hpred := List.find?_some hf
    have hpn : p.1 = n := by simpa using hpred
    have hds : p.2 = ds := by simpa using h
    have hp : p = (n, ds) := by
      cases p
      simp at hpn hds
      rw [hpn, hds]
    rw [← hp]
    exact hmem

theorem rank_of_lookup {repo : Repo} {rank : String → Nat}
    (Hrank : ∀ p ∈ repo, ∀ d ∈ p.2, rank d < rank p.1)
    {n : String} {ds : List String} (h : repoLookup repo n = some ds) :
    ∀ d ∈ ds, rank d < rank n :=
  fun d hd => Hrank (n, ds) (repoLookup_mem h) d hd

theorem depsOf_eq {repo : Repo} {n : String} {ds : List String}
    (h : repoLookup repo n = some ds) : depsOf repo n = ds := by
  simp [depsOf, h]

/-- Loop lemma: under a rank function decreasing along dependencies, a
successful run of the dependency loop preserves the invariant, installs
every listed dependency, appends only names that were not installed
before, and leaves no new visited-but-uninstalled name. -/
theorem resolveGo_post (repo : Repo) (rank : String → Nat) (init : List String)
    (Hrank : ∀ p ∈ repo, ∀ d ∈ p.2, rank d < rank p.1) (fuel : Nat)
    (hrf : RfGood repo rank init fuel) :
    ∀ (ds : List String) (b : Nat) (s s2 : RState),
      resolveGo repo fuel ds s = Except.ok s2 →
      RInv repo init s →
      VisBound rank b s →
      (∀ d ∈ ds, rank d < b) →
      GoPost repo init ds s s2 := by
  intro ds
  induction ds with
  | nil =>
    intro b s s2 hrun hinv hvb _
    have hs : s = s2 := by simpa [resolveGo, resolveStep] using hrun
    subst hs
    exact ⟨hinv, fun x hx => hx, ⟨[], by simp⟩, fun v hv => Or.inr hv,
      by simp, fun x hx => Or.inl hx, fun v hv => hv⟩
  | cons d ds ih =>
    intro b s s2 hrun hinv hvb hds
    by_cases hd : d ∈ s.installed
    · have hrun2 : resolveGo repo fuel ds s = Except.ok s2 := by
        simpa [resolveGo, resolveStep, hd] using hrun
      obtain ⟨hinv2, hmono, hord, hvis, hdall, hnew, hvmono⟩ :=
        ih b s s2 hrun2 hinv hvb (fun x hx => hds x (List.mem_cons_of_mem d hx))
      refine ⟨hinv2, hmono, hord, hvis, ?_, hnew, hvmono⟩
      intro x hx
      rcases List.mem_cons.mp hx with rfl | hx2
      · exact hmono x hd
      · exact hdall x hx2
    · rcases hlk : repoLookup repo d with _ | ddeps
      · simp [resolveGo, resolveStep, hd, hlk] at hrun
      · rcases hrf2 : resolveFuel repo fuel d ddeps s with e | s1
        · simp [resolveGo, resolveStep, hd, hlk, hrf2] at hrun
        · have hrun2 : resolveGo repo fuel ds (installPkg d s1)
              = Except.ok s2 := by
            simpa [resolveGo, resolveStep, hd, hlk, hrf2] using hrun
          have hrankd : rank d < b := hds d (List.mem_cons_self d ds)
          have hvbd : VisBound rank (rank d) s := by
            intro v hv
            rcases hvb v hv with h2 | h2
            · exact Or.inl h2
            · exact Or.inr (Nat.le_trans (Nat.le_of_lt hrankd) h2)
          obtain ⟨hinv1, hmono1, ⟨t1, hord1⟩, hvis1, _, hdeps1, hnew1, hvmono1⟩ :=
            hrf d ddeps s s1 hrf2 hinv hvbd (rank_of_lookup Hrank hlk)
          have hdnv : d ∉ s.visited := by
            intro hdv
            rcases hvb d hdv with h2 | h2
            · exact hd h2
            · omega
          have hdd := hdeps1 hdnv
          have hinv1b : RInv repo init (installPkg d s1) := by
            constructor
            · simp [installPkg, List.reverse_append, hinv1.1]
            · show stackOK repo init ((s1.order ++ [d]).reverse)
              rw [List.reverse_append]
              simp only [List.reverse_singleton, List.singleton_append]
              refine ⟨?_, hinv1.2⟩
              intro x hx
              rw [depsOf_eq hlk] at hx
              have hxin := hdd x hx
              rw [hinv1.1] at hxin
              exact hxin
          have hmonoI : ∀ x ∈ s1.installed, x ∈ (installPkg d s1).installed :=
            fun x hx => List.mem_cons_of_mem d hx
          have hvb1b : VisBound rank b (installPkg d s1) := by
            intro v hv
            have hv1 : v ∈ s1.visited := hv
            rcases hvis1 v hv1 with h2 | h2 | h2
            · exact Or.inl (hmonoI v h2)
            · rcases hvb v h2 with h3 | h3
              · exact Or.inl (hmonoI v (hmono1 v h3))
              · exact Or.inr h3
            · subst h2
              exact Or.inl (List.mem_cons_self _ _)
          obtain ⟨hinv2, hmono2, ⟨t2, hord2⟩, hvis2, hdall2, hnew2, hvmono2⟩ :=
            ih b (installPkg d s1) s2 hrun2 hinv1b hvb1b
              (fun x hx => hds x (List.mem_cons_of_mem d hx))
          refine ⟨hinv2, ?_, ?_, ?_, ?_, ?_, ?_⟩
          · intro x hx
            exact hmono2 x (hmonoI x (hmono1 x hx))
          · refine ⟨t1 ++ ([d] ++ t2), ?_⟩
            rw [hord2]
            simp only [installPkg, hord1]
            simp [List.append_assoc]
          · intro v hv
            rcases hvis2 v hv with h2 | h2
            · exact Or.inl h2
            · have hv1 : v ∈ s1.visited := h2
              rcases hvis1 v hv1 with h3 | h3 | h3
              · exact Or.inl (hmono2 v (hmonoI v h3))
              · exact Or.inr h3
              · subst h3
                exact Or.inl (hmono2 v (List.mem_cons_self _ _))
          · intro x hx
            rcases List.mem_cons.mp hx with rfl | hx2
            · exact hmono2 x (List.mem_cons_self _ _)
            · exact hdall2 x hx2
          · intro x hx
            rcases hnew2 x hx with h2 | h2
            · have h2b : x ∈ s1.order ++ [d] := h2
              rcases List.mem_append.mp h2b with h3 | h3
              · exact hnew1 x h3
              · have hxd : x = d := by simpa using h3
                subst hxd
                exact Or.inr hd
            · refine Or.inr ?_
              intro hxs
              exact h2 (hmonoI x (hmono1 x hxs))
          · intro v hv
            exact hvmono2 v (hvmono1 v hv)

/-- Resolve lemma: the hypothesis template holds at every fuel. -/
theorem resolveFuel_post (repo : Repo) (rank : String → Nat)
    (init : List String)
    (Hrank : ∀ p ∈ repo, ∀ d ∈ p.2, rank d < rank p.1) :
    ∀ fuel, RfGood repo rank init fuel := by
  intro fuel
  induction fuel with
  | zero =>
    intro name deps s s2 hrun
    simp [resolveFuel] at hrun
  | succ fuel ih =>
    intro name deps s s2 hrun hinv hvb hdeps
    by_cases hv : name ∈ s.visited
    · have hs : s = s2 := by simpa [resolveFuel, hv] using hrun
      subst hs
      exact ⟨hinv, fun x hx => hx, ⟨[], by simp⟩,
        fun v hvv => Or.inr (Or.inl hvv), fun _ => rfl,
        fun hn => absurd hv hn, fun x hx => Or.inl hx, fun v hvv => hvv⟩
    · have hrun2 : resolveGo repo fuel deps
          ⟨s.installed, s.order, name :: s.visited⟩ = Except.ok s2 := by
        simpa [resolveFuel, hv] using hrun
      have hinv1 : RInv repo init ⟨s.installed, s.order, name :: s.visited⟩ :=
        hinv
      have hvb1 : VisBound rank (rank name)
          ⟨s.installed, s.order, name :: s.visited⟩ := by
        intro v hvv
        rcases List.mem_cons.mp hvv with rfl | h2
        · exact Or.inr (Nat.le_refl _)
        · exact hvb v h2
      obtain ⟨hinv2, hmono, hord, hvis, hdall, hnew, hvmono⟩ :=
        resolveGo_post repo rank init Hrank fuel ih deps (rank name)
          ⟨s.installed, s.order, name :: s.visited⟩ s2 hrun2 hinv1 hvb1 hdeps
      refine ⟨hinv2, hmono, hord, ?_, fun hn => absurd hn hv,
        fun _ => hdall, hnew, ?_⟩
      · intro v hvv
        rcases hvis v hvv with h2 | h2
        · exact Or.inl h2
        · rcases List.mem_cons.mp h2 with rfl | h3
          · exact Or.inr (Or.inr rfl)
          · exact Or.inr (Or.inl h3)
      · intro v hvv
        exact hvmono v (List.mem_cons_of_mem name hvv)

/-- C5.  Installing a recipe installs its transitive dependencies leaves
before roots with the target written last: for every recipe repository
with a rank function witnessing acyclic dependencies, a successful
`cmd_install` run writes the database in an order whose stack is
dependency-sound (every written package's dependencies are written
earlier or were already installed), writes the target last, never
rewrites an already-installed dependency, and ends with the database
holding exactly the initial set plus the written order.  Concretely, on
the chain a depends on b depends on c with nothing installed the write
order is c, b, a; and a missing dependency recipe raises the
unresolved-dependency error. -/
theorem claim_c5 :
    (∀ (repo : Repo) (rank : String → Nat) (fuel : Nat) (target : String)
        (tdeps init : List String) (s2 : RState),
        (∀ p ∈ repo, ∀ d ∈ p.2, rank d < rank p.1) →
        repoLookup repo target = some tdeps →
        cmdInstall repo fuel target tdeps init = Except.ok s2 →
        (∃ inner, s2.order = inner ++ [target] ∧ ∀ n ∈ inner, n ∉ init)
        ∧ stackOK repo init s2.order.reverse
        ∧ (∀ x, x ∈ s2.installed ↔ x ∈ init ++ s2.order))
    ∧ (cmdInstall [("a", ["b"]), ("b", ["c"]), ("c", [])] 10 "a" ["b"]
        []).toOption.map RState.order = some ["c", "b", "a"]
    ∧ cmdInstall [("a", ["b"])] 10 "a" ["b"] []
        = Except.error "UnresolvedDependency" := by
  refine ⟨?_, by decide, by decide⟩
  intro repo rank fuel target tdeps init s2 Hrank Htarget hrun
  rcases hres : resolveFuel repo fuel target tdeps ⟨init, [], []⟩ with e | s0
  · unfold cmdInstall at hrun
    rw [hres] at hrun
    exact absurd hrun (by simp)
  · have hs2 : (Except.ok (installPkg target s0) : Except String RState)
        = Except.ok s2 := by
      unfold cmdInstall at hrun
      rw [hres] at hrun
      exact hrun
    have hs2b : s2 = installPkg target s0 := (Except.ok.inj hs2).symm
    subst hs2b
    have hinv0 : RInv repo init ⟨init, [], []⟩ := by
      constructor
      · simp
      · trivial
    have hvb0 : VisBound rank (rank target) ⟨init, [], []⟩ := by
      intro v hv
      exact absurd hv (List.not_mem_nil v)
    obtain ⟨hinv1, hmono, ⟨t, hord⟩, hvis, hskip, hdeps1, hnew, hvmono⟩ :=
      resolveFuel_post repo rank init Hrank fuel target tdeps
        ⟨init, [], []⟩ s0 hres hinv0 hvb0 (rank_of_lookup Hrank Htarget)
    have hdd := hdeps1 (List.not_mem_nil target)
    refine ⟨⟨s0.order, rfl, ?_⟩, ?_, ?_⟩
    · intro n hn
      rcases hnew n hn with h2 | h2
      · exact absurd h2 (List.not_mem_nil n)
      · exact h2
    · show stackOK repo init ((s0.order ++ [target]).reverse)
      rw [List.reverse_append]
      simp only [List.reverse_singleton, List.singleton_append]
      refine ⟨?_, hinv1.2⟩
      intro x hx
      rw [depsOf_eq Htarget] at hx
      have hxin := hdd x hx
      rw [hinv1.1] at hxin
      exact hxin
    · intro x
      show x ∈ target :: s0.installed ↔ x ∈ init ++ (s0.order ++ [target])
      rw [hinv1.1]
      simp only [List.mem_cons, List.mem_append, List.mem_reverse,
        List.mem_singleton]
      tauto

/-- C5, witness: the chain repository (a depends on b depends on c) with
the rank c = 0, b = 1, a = 2; the run writes c, b, a, the stack is
dependency-sound, and the final database is exactly the written order. -/
theorem claim_c5_witness :
    (∃ inner, (["c", "b", "a"] : List String) = inner ++ ["a"]
        ∧ ∀ n ∈ inner, n ∉ ([] : List String))
    ∧ stackOK [("a", ["b"]), ("b", ["c"]), ("c", [])] []
        (["c", "b", "a"] : List String).reverse
    ∧ (∀ x, x ∈ (["a", "b", "c"] : List String)
        ↔ x ∈ ([] : List String) ++ ["c", "b", "a"]) := by
  exact claim_c5.1 [("a", ["b"]), ("b", ["c"]), ("c", [])]
    (fun n => if n = "a" then 2 else if n = "b" then 1 else 0) 10 "a" ["b"] []
    ⟨["a", "b", "c"], ["c", "b", "a"], ["c", "b", "a"]⟩
    (by decide) (by decide) (by decide)
